import Mathlib

/-!
Verification development for the PDF-to-Markdown layout reconstruction engine
(`_pdf_converter.py`).  Python strings are embedded as `List Char`, Python
floats (PDF coordinates, all small decimal quantities) as `ℚ`, and the two
fallible external collaborators (the layout library and the linear text
extractor) as data carried by the `Page` / `Document` structures.  Each
definition below mirrors one function or code block of the source file; line
references point into `_pdf_converter.py`.
-/

namespace PdfConv

set_option maxRecDepth 8000

/-- Python `str` embedded as a list of characters. -/
abbrev Text := List Char

/-- One line of text (the result of splitting on a newline). -/
abbrev Line := List Char

/-- Python whitespace test used by `str.strip()`. -/
def isWS (c : Char) : Bool := c.isWhitespace

/-- Python `str.strip()`: drop whitespace from both ends (lines 35, 46, 559). -/
def stripL (l : Line) : Line :=
  ((l.dropWhile isWS).reverse.dropWhile isWS).reverse

/-- A line whose stripped content is empty (`not lines[j].strip()`, line 41). -/
def isBlank (l : Line) : Bool := (stripL l).isEmpty

/-- The regex `^\.\d+$` (line 11): a literal dot followed by one or more
digits and nothing else. -/
def isPartialNumbering (l : Line) : Bool :=
  match l with
  | c :: rest => decide (c = '.') && !rest.isEmpty && rest.all (·.isDigit)
  | [] => false

/-- The inner scan of `_merge_partial_numbering_lines` (lines 40-43): find the
first non-blank line, returning it together with the lines after it. -/
def findNonBlank : List Line → Option (Line × List Line)
  | [] => none
  | l :: ls => if isBlank l then findNonBlank ls else some (l, ls)

theorem findNonBlank_length : ∀ {ls : List Line} {nxt : Line} {rest : List Line},
    findNonBlank ls = some (nxt, rest) → rest.length < ls.length := by
  intro ls
  induction ls with
  | nil => intro nxt rest h; simp [findNonBlank] at h
  | cons l ls ih =>
    intro nxt rest h
    simp only [findNonBlank] at h
    split at h
    · have := ih h
      simp only [List.length_cons]
      omega
    · simp only [Option.some.injEq, Prod.mk.injEq] at h
      simp [← h.2]

/-- The loop body of `_merge_partial_numbering_lines` (lines 33-55): a line
whose stripped content is a bare partial numbering is merged with the next
non-blank line (stripped prefix, one space, stripped continuation); otherwise
the line passes through unchanged. -/
def mergeLines : List Line → List Line
  | [] => []
  | l :: ls =>
    if isPartialNumbering (stripL l) then
      match h : findNonBlank ls with
      | some (nxt, rest) => (stripL l ++ ' ' :: stripL nxt) :: mergeLines rest
      | none => l :: mergeLines ls
    else
      l :: mergeLines ls
termination_by ls => ls.length
decreasing_by
  · have := findNonBlank_length h
    simp only [List.length_cons]
    omega
  · simp
  · simp

/-- Python `text.split("\n")` (line 29). -/
def splitLines : Text → List Line
  | [] => [[]]
  | c :: cs =>
    if c = '\n' then [] :: splitLines cs
    else
      match splitLines cs with
      | [] => [[c]]
      | l :: ls => (c :: l) :: ls

/-- Python `"\n".join(result_lines)` (line 57). -/
def joinLines : List Line → Text
  | [] => []
  | [l] => l
  | l :: ls => l ++ '\n' :: joinLines ls

/-- The post-processor `_merge_partial_numbering_lines` (lines 14-57). -/
def mergeText (t : Text) : Text :=
  joinLines (mergeLines (splitLines t))

/-! ## Data model: words, pages, rows -/

/-- A positioned word as delivered by the layout library: text plus bounding
box (`x0`, `x1`, `top`). -/
structure Word where
  text : Text
  x0 : ℚ
  x1 : ℚ
  top : ℚ
deriving DecidableEq

/-- One PDF page as seen through the external collaborators: its extracted
word list, its width, and the page-local plain-text extraction
(`page.extract_text()`, line 558). -/
structure Page where
  words : List Word
  width : ℚ
  plainText : Text
deriving DecidableEq

/-- Vertical bucket key (line 140): `round(top / 5) * 5`. -/
def yKey (top : ℚ) : ℚ := ((round (top / 5) : ℤ) : ℚ) * 5

/-- One-dimensional clustering (lines 163-166, 225-228): scanning positions in
order, a position starts a new cluster when it is more than `tol` past the last
accepted cluster representative. -/
def clusterAux (tol : ℚ) (last : ℚ) : List ℚ → List ℚ
  | [] => []
  | x :: xs => if x - last > tol then x :: clusterAux tol x xs else clusterAux tol last xs

/-- Clustering applied to a full position list: the first position always
opens a cluster (`if not x_groups or ...`, lines 165, 227). -/
def clusterPositions (tol : ℚ) : List ℚ → List ℚ
  | [] => []
  | x :: xs => x :: clusterAux tol x xs

/-- Per-row data computed in the first pass over rows (lines 179-189). -/
structure RowInfo where
  words : List Word
  text : Text
  xGroups : List ℚ
  isParagraph : Bool
  hasPartialNumbering : Bool
deriving DecidableEq

/-- Python `" ".join(w["text"] for w in row_words)` (line 159). -/
def joinTexts (ts : List Text) : Text := List.intercalate [' '] ts

/-- Sort a row's words by left edge (line 152); `mergeSort` is stable, like
Python `sorted`. -/
def sortWordsByX0 (ws : List Word) : List Word :=
  ws.mergeSort (fun a b => decide (a.x0 ≤ b.x0))

/-- The distinct vertical bucket keys of a word list, in ascending order
(lines 139-146). -/
def rowKeysSorted (ws : List Word) : List ℚ :=
  ((ws.map (fun w => yKey w.top)).dedup).mergeSort (fun a b => decide (a ≤ b))

/-- The words of a page falling in one vertical bucket, sorted by `x0`
(lines 141-143, 152). -/
def rowsOf (ws : List Word) (k : ℚ) : List Word :=
  sortWordsByX0 (ws.filter (fun w => decide (yKey w.top = k)))

/-- First-pass analysis of one row (lines 151-189): span width, combined text,
x-position groups (50-unit clustering), paragraph flag (span > 55% of page
width and more than 60 characters), and the partial-numbering flag on the
first word. Returns `none` for an empty row (`continue`, line 154). -/
def buildRowInfo (pageWidth : ℚ) (rowWords : List Word) : Option RowInfo :=
  match rowWords with
  | [] => none
  | w₀ :: _ =>
    let lastX1 := (rowWords.getLast?.map (·.x1)).getD 0
    let lineWidth := lastX1 - w₀.x0
    let combined := joinTexts (rowWords.map (·.text))
    let xs := (rowWords.map (·.x0)).mergeSort (fun a b => decide (a ≤ b))
    let xGroups := clusterPositions 50 xs
    some
      { words := rowWords
        text := combined
        xGroups := xGroups
        isParagraph := decide (lineWidth > pageWidth * (55 / 100) ∧ combined.length > 60)
        hasPartialNumbering := isPartialNumbering (stripL w₀.text) }

/-- The page's rows in top-to-bottom order with their first-pass analysis
(lines 149-189). -/
def rowInfos (pageWidth : ℚ) (ws : List Word) : List RowInfo :=
  (rowKeysSorted ws).filterMap (fun k => buildRowInfo pageWidth (rowsOf ws k))

/-! ## Column Model Builder -/

/-- Consecutive differences of a position list (lines 206-207). -/
def consecGaps : List ℚ → List ℚ
  | x :: y :: rest => (y - x) :: consecGaps (y :: rest)
  | _ => []

/-- Gaps above the 5-unit noise floor (lines 208-209). -/
def significantGaps (ps : List ℚ) : List ℚ :=
  (consecGaps ps).filter (fun g => decide (g > 5))

/-- Python `int()` applied to a rational: truncation toward zero. -/
def pythonInt (q : ℚ) : ℤ := if 0 ≤ q then ⌊q⌋ else ⌈q⌉

/-- Fuel-driven binary logarithm: `natLog2Aux fuel n` is the position of the
most significant bit of `n` whenever `n ≤ fuel` (the fuel only bounds the
recursion depth). -/
def natLog2Aux : ℕ → ℕ → ℕ
  | 0, _ => 0
  | fuel + 1, n => if 2 ≤ n then natLog2Aux fuel (n / 2) + 1 else 0

/-- The floor of the binary logarithm of a positive natural number. -/
def natLog2 (n : ℕ) : ℕ := natLog2Aux n n

/-- The IEEE-754 binary64 value of the Python literal `0.70` (line 215): the
double nearest to 7/10, namely 3152519739159347 × 2⁻⁵². -/
def c07 : ℚ := 3152519739159347 / 2 ^ 52

/-- Round a rational to the nearest integer, ties to even — the IEEE-754
default rounding applied to the scaled significand. -/
def roundHalfEven (x : ℚ) : ℤ :=
  if x - ⌊x⌋ < 1 / 2 then ⌊x⌋
  else if 1 / 2 < x - ⌊x⌋ then ⌊x⌋ + 1
  else if ⌊x⌋ % 2 = 0 then ⌊x⌋ else ⌊x⌋ + 1

/-- The floor of the binary logarithm of a positive rational, from the binary
logarithms of the numerator and denominator with a one-step correction. -/
def qlog2 (x : ℚ) : ℤ :=
  if x < 2 ^ ((natLog2 x.num.toNat : ℤ) - (natLog2 x.den : ℤ)) then
    (natLog2 x.num.toNat : ℤ) - (natLog2 x.den : ℤ) - 1
  else (natLog2 x.num.toNat : ℤ) - (natLog2 x.den : ℤ)

/-- Round a positive rational to the nearest IEEE-754 binary64 double
(round-to-nearest, ties-to-even, normal range — which covers every value the
percentile computation can produce): scale into the 53-bit significand range,
round, and scale back. -/
def floatRound (x : ℚ) : ℚ :=
  if x ≤ 0 then 0
  else (roundHalfEven (x / 2 ^ (qlog2 x - 52)) : ℚ) * 2 ^ (qlog2 x - 52)

/-- The percentile index `int(len(sorted_gaps) * 0.70)` of line 215 under
IEEE-754 double arithmetic: the exact length times the double `0.70` rounds
to the nearest double, and `int()` truncates.  This equals ⌊0.7·len⌋ for most
lengths, but is one smaller at lengths 90, 170, 180, 330, …, where the float
product falls just below the exact integer multiple. -/
def pyPercentileIdx (n : ℕ) : ℕ := (pythonInt (floatRound ((n : ℚ) * c07))).toNat

/-- Adaptive clustering tolerance (lines 211-222): with at least three
significant gaps, the value at the floating-point index `int(len * 0.70)` of
the sorted gap list clamped into `[25, 50]`; otherwise the fixed fallback
35. -/
def computeAdaptiveTolerance (ps : List ℚ) : ℚ :=
  if ¬(significantGaps ps).isEmpty ∧ 3 ≤ (significantGaps ps).length then
    max 25 (min 50
      (((significantGaps ps).mergeSort (fun a b => decide (a ≤ b))).getD
        (pyPercentileIdx
          (((significantGaps ps).mergeSort (fun a b => decide (a ≤ b))).length)) 0))
  else 35

/-- The global column boundaries of lines 225-228: the sorted pooled
positions clustered with the adaptive tolerance. -/
def globalColumns (ps : List ℚ) : List ℚ :=
  clusterPositions (computeAdaptiveTolerance ps) ps

/-- The content width of line 233: last boundary minus first boundary. -/
def contentWidthOf (cols : List ℚ) : ℚ := cols.getLast?.getD 0 - cols.headD 0

/-- The Column Model Builder applied to the sorted pooled positions
(lines 201-257): derive the adaptive tolerance, cluster into global column
boundaries, then reject the page (`none`) when there are fewer than two
boundaries, the average column width is below 30 units, the column density
exceeds 10 columns per inch, or the boundary count exceeds
`max(15, int(20 * page_width / 612))`. -/
def buildColumnModel (pageWidth : ℚ) (ps : List ℚ) : Option (List ℚ) :=
  if 1 < (globalColumns ps).length then
    if contentWidthOf (globalColumns ps) / ((globalColumns ps).length : ℚ) < 30 then none
    else if ((globalColumns ps).length : ℚ) / (contentWidthOf (globalColumns ps) / 72) > 10 then
      none
    else if ((globalColumns ps).length : ℤ) > max 15 (pythonInt (20 * (pageWidth / 612))) then
      none
    else some (globalColumns ps)
  else none

/-! ## Row classification against the model, regions, rendering -/

/-- Index of the first global column within 40 units of a word start
(lines 272-278, first match wins). -/
def firstAligned (cols : List ℚ) (x : ℚ) : Option ℕ :=
  cols.findIdx? (fun c => decide (|x - c| < 40))

/-- Final table-row classification (lines 261-281): never a table row when
flagged paragraph or partial numbering; otherwise a table row iff its words
align with at least two distinct global columns. -/
def isTableRow (cols : List ℚ) (r : RowInfo) : Bool :=
  !r.isParagraph && !r.hasPartialNumbering &&
    decide (2 ≤ ((r.words.filterMap (fun w => firstAligned cols w.x0)).dedup).length)

/-- Maximal runs of consecutive table rows — the table regions of
lines 284-294, represented by their row lists instead of index pairs. -/
def tableRuns (cols : List ℚ) : List RowInfo → List (List RowInfo)
  | [] => []
  | r :: rs =>
    if isTableRow cols r then
      (r :: rs.takeWhile (isTableRow cols)) :: tableRuns cols (rs.dropWhile (isTableRow cols))
    else
      tableRuns cols rs
termination_by rs => rs.length
decreasing_by
  · have := (List.dropWhile_sublist (l := rs) (isTableRow cols)).length_le
    simp only [List.length_cons]
    omega
  · simp

/-- Total number of rows inside table regions (line 297): the sum of the
region lengths. -/
def countTableRows (cols : List ℚ) (rows : List RowInfo) : ℕ :=
  (tableRuns cols rows).foldl (fun a run => a + run.length) 0

/-- Column assignment in `extract_cells` (lines 308-315): walking the column
boundaries after the first, return the index of the first column whose end
boundary is more than 20 units right of the word start; when the walk is
exhausted the word lands in the final column. `i` counts boundaries already
passed. -/
def assignedColAux (x : ℚ) (i : ℕ) : List ℚ → ℕ
  | [] => i
  | b :: bs => if x < b - 20 then i else assignedColAux x (i + 1) bs

/-- Column index assigned to a word start `x` by `extract_cells`
(lines 311-315).  The Python loop reads `global_columns[col_idx + 1]`, i.e. it
walks the tail of the boundary list. -/
def assignedCol (cols : List ℚ) (x : ℚ) : ℕ :=
  assignedColAux x 0 cols.tail

/-- Cell update of `extract_cells` (lines 317-320): append with a single
space to a non-empty cell, otherwise overwrite the empty cell. -/
def cellAppend (cell : Text) (t : Text) : Text :=
  if cell.isEmpty then t else cell ++ ' ' :: t

/-- The helper `extract_cells` (lines 306-321): start from `num_cols` empty
cells and fold the row's words (already in left-to-right order) into their
assigned cells. -/
def extract_cells (cols : List ℚ) (ws : List Word) : List Text :=
  ws.foldl
    (fun cells w =>
      let j := assignedCol cols w.x0
      cells.set j (cellAppend (cells.getD j []) w.text))
    (List.replicate cols.length [])

/-- The 2-D cell array of one table region (lines 338-341). -/
def tableData (cols : List ℚ) (run : List RowInfo) : List (List Text) :=
  run.map (fun info => extract_cells cols info.words)

/-- Per-region column widths (lines 345-349): the maximum cell length in each
column, floored at 3. -/
def tableWidths (cols : List ℚ) (run : List RowInfo) : List ℕ :=
  (List.range cols.length).map
    (fun c => max ((tableData cols run).foldl (fun m row => max m (row.getD c []).length) 0) 3)

/-- Python `cell.ljust(width)`. -/
def ljust (t : Text) (w : ℕ) : Text := t ++ List.replicate (w - t.length) ' '

/-- One pipe-delimited table line (lines 352-359, 371-378). -/
def fmtRow (widths : List ℕ) (row : List Text) : Line :=
  "| ".data ++ List.intercalate (" | ".data) (List.zipWith ljust row widths) ++ " |".data

/-- The header separator line (lines 363-368). -/
def sepLine (widths : List ℕ) : Line :=
  "| ".data ++ List.intercalate (" | ".data) (widths.map (fun w => List.replicate w '-')) ++ " |".data

/-- Rendering of one table region (lines 335-379): header, separator, data
rows, all padded to the per-region column widths. -/
def renderTable (cols : List ℚ) (run : List RowInfo) : List Line :=
  if (tableData cols run).isEmpty then []
  else
    fmtRow (tableWidths cols run) ((tableData cols run).headD []) ::
      sepLine (tableWidths cols run) ::
      ((tableData cols run).tail.map (fmtRow (tableWidths cols run)))

/-- The output walk of lines 324-393: rows inside a table region are rendered
as one table (the walk jumps to the region end); rows outside any region are
emitted as their combined text. -/
def renderRows (cols : List ℚ) : List RowInfo → List Line
  | [] => []
  | r :: rs =>
    if isTableRow cols r then
      renderTable cols (r :: rs.takeWhile (isTableRow cols)) ++
        renderRows cols (rs.dropWhile (isTableRow cols))
    else
      r.text :: renderRows cols rs
termination_by rs => rs.length
decreasing_by
  · have := (List.dropWhile_sublist (l := rs) (isTableRow cols)).length_le
    simp only [List.length_cons]
    omega
  · simp

/-! ## Per-page extraction -/

/-- The pooled candidate column positions (lines 193-196): the x-groups of
every row with at least three columns that is not a paragraph. -/
def pooledPositions (rows : List RowInfo) : List ℚ :=
  (rows.filter (fun r => decide (3 ≤ r.xGroups.length) && !r.isParagraph)).flatMap (·.xGroups)

/-- The page's rows. -/
def pageRows (p : Page) : List RowInfo := rowInfos p.width p.words

/-- The pooled positions of a page after the in-place sort of line 202. -/
def sortedPooled (p : Page) : List ℚ :=
  (pooledPositions (pageRows p)).mergeSort (fun a b => decide (a ≤ b))

/-- `_extract_form_content_from_words` (lines 120-395): `none` when the page
has no words, no pooled positions, a rejected column model, or fewer than 20%
table rows; otherwise the joined rendered lines. -/
def extract_form_content (p : Page) : Option Text :=
  if p.words.isEmpty then none
  else if (pooledPositions (pageRows p)).isEmpty then none
  else
    match buildColumnModel p.width (sortedPooled p) with
    | none => none
    | some cols =>
      if 0 < (pageRows p).length ∧
          ((countTableRows cols (pageRows p) : ℚ) / ((pageRows p).length : ℚ) < 2 / 10) then
        none
      else some (joinLines (renderRows cols (pageRows p)))

/-! ## Document-level policy -/

/-- A page's appended chunk in the loop of lines 550-564: the form content
when present and non-blank, otherwise the stripped plain text when non-blank,
otherwise nothing. -/
def pageChunk (p : Page) : Option Text :=
  match extract_form_content p with
  | none => if (stripL p.plainText).isEmpty then none else some (stripL p.plainText)
  | some c => if (stripL c).isEmpty then none else some c

/-- A page together with a flag recording whether the layout-aware extraction
raises on it (the failure source caught by the `except` of line 574). -/
structure PageItem where
  page : Page
  raises : Bool
deriving DecidableEq

/-- A document: its pages and the linear extractor's text for the whole byte
stream (`pdfminer.high_level.extract_text`, lines 569, 577, 582). -/
structure Document where
  pages : List PageItem
  minerText : Text
deriving DecidableEq

/-- The page loop of lines 545-564 under exception semantics: a raising page
aborts the loop (`none`); otherwise the form/plain tallies and the chunk list
are accumulated in page order. -/
def processPages : List PageItem → Option (ℕ × ℕ × List Text)
  | [] => some (0, 0, [])
  | it :: rest =>
    if it.raises then none
    else
      match processPages rest with
      | none => none
      | some (f, pl, chunks) =>
        if (extract_form_content it.page).isSome then
          some (f + 1, pl, (pageChunk it.page).toList ++ chunks)
        else some (f, pl + 1, (pageChunk it.page).toList ++ chunks)

/-- Python `"\n\n".join(markdown_chunks)` (line 572). -/
def joinChunks (chunks : List Text) : Text := List.intercalate ('\n' :: ['\n']) chunks

/-- The document-level decision of lines 566-577: on an exception, the linear
extractor's whole-document text; otherwise the whole-document text when
`plain_pages > form_pages and plain_pages > 0`, else the stripped joined
chunks. -/
def docMarkdown (mt : Text) : Option (ℕ × ℕ × List Text) → Text
  | none => mt
  | some (f, pl, chunks) =>
    if pl > f ∧ pl > 0 then mt else stripL (joinChunks chunks)

/-- The empty-result fallback of lines 580-582: an empty markdown string is
replaced by the whole-document linear extraction. -/
def withEmptyFallback (mt md : Text) : Text := if md.isEmpty then mt else md

/-- `PdfConverter.convert` (lines 520-587) after dependency checks: the
document-level markdown, the empty-result fallback of lines 580-582, and the
numbering-merge post-process of line 585. -/
def convert (doc : Document) : Text :=
  mergeText (withEmptyFallback doc.minerText (docMarkdown doc.minerText (processPages doc.pages)))

/-! ## Definitions modelled from the specification's words

These definitions follow the specification text rather than the source; they
exist only to be compared against the source-derived definitions above. -/

/-- Modelled from the spec (claim C4 wording): a word belongs to "the last
column whose start boundary is at or before `word.x0 − 20`, defaulting to the
final column" when no boundary qualifies. -/
def claimAssignedCol (cols : List ℚ) (x : ℚ) : ℕ :=
  match ((List.range cols.length).filter (fun j => decide (cols.getD j 0 ≤ x - 20))).getLast? with
  | some j => j
  | none => cols.length - 1

/-- Modelled from the spec (claim C5 wording): the rejection disjunction for
the Column Model Builder, with the adaptive cap written as
`max(15, round(20 × page_width / 612))`. -/
def claimColumnReject (w : ℚ) (ps : List ℚ) : Bool :=
  decide ((globalColumns ps).length < 2) ||
    decide (contentWidthOf (globalColumns ps) / ((globalColumns ps).length : ℚ) < 30) ||
    decide (((globalColumns ps).length : ℚ) / (contentWidthOf (globalColumns ps) / 72) > 10) ||
    decide (((globalColumns ps).length : ℤ) > max 15 (round ((20 : ℚ) * (w / 612))))

/-- Modelled from the spec (claim C6 wording): the same tolerance computation
with the 70th-percentile index of the sorted gap list taken exactly, as
⌊0.70 × len⌋, instead of the floating-point `int(len * 0.70)`. -/
def claimAdaptiveTolerance (ps : List ℚ) : ℚ :=
  if ¬(significantGaps ps).isEmpty ∧ 3 ≤ (significantGaps ps).length then
    max 25 (min 50
      (((significantGaps ps).mergeSort (fun a b => decide (a ≤ b))).getD
        ((((significantGaps ps).mergeSort (fun a b => decide (a ≤ b))).length) * 7 / 10) 0))
  else 35

/-- Modelled from the spec (claim C3 wording): a per-page extraction failure
is "caught and treated as a non-tabular page", so a raising page contributes
its stripped page-local plain text and is tallied as a plain page, and the
remaining pages are still processed. -/
def processPagesClaim : List PageItem → ℕ × ℕ × List Text
  | [] => (0, 0, [])
  | it :: rest =>
    match processPagesClaim rest with
    | (f, pl, chunks) =>
      if it.raises then
        (f, pl + 1,
          (if (stripL it.page.plainText).isEmpty then [] else [stripL it.page.plainText]) ++ chunks)
      else if (extract_form_content it.page).isSome then
        (f + 1, pl, (pageChunk it.page).toList ++ chunks)
      else (f, pl + 1, (pageChunk it.page).toList ++ chunks)

/-- Modelled from the spec (claim C3 wording): the document conversion under
the claimed per-page failure recovery. -/
def claimConvert (doc : Document) : Text :=
  mergeText
    (withEmptyFallback doc.minerText (docMarkdown doc.minerText (some (processPagesClaim doc.pages))))

/-! ## Concrete inputs used by counterexamples and witnesses -/

/-- A three-row, three-column form page: every gate of the form extractor
accepts it and it renders as one Markdown table. -/
def formPage : Page :=
  { words :=
      [ ⟨"a".data, 0, 10, 0⟩, ⟨"b".data, 100, 110, 0⟩, ⟨"c".data, 200, 210, 0⟩
      , ⟨"d".data, 0, 10, 20⟩, ⟨"e".data, 100, 110, 20⟩, ⟨"f".data, 200, 210, 20⟩
      , ⟨"g".data, 0, 10, 40⟩, ⟨"h".data, 100, 110, 40⟩, ⟨"i".data, 200, 210, 40⟩ ]
    width := 612
    plainText := "plain form".data }

/-- A page with one 16-column row on a narrow page: the pooled positions are
non-empty but the boundary count 16 exceeds the adaptive cap
`max(15, int(20 × 61.2 / 612)) = 15`, so the Column Model Builder rejects the
page.  Its plain text carries surrounding whitespace. -/
def pg16 : Page :=
  { words := (List.range 16).map (fun i => ⟨"x".data, 60 * i, 60 * i + 5, 0⟩)
    width := 306 / 5
    plainText := " hello ".data }

/-- A word-less page whose plain text is blank apart from padding. -/
def plainPage1 : Page := { words := [], width := 612, plainText := " P1 ".data }

/-- A two-page document whose first page raises inside the layout-aware
extraction and whose second page is a well-formed table page. -/
def exDocC3 : Document :=
  { pages := [⟨plainPage1, true⟩, ⟨formPage, false⟩], minerText := "MINER".data }

/-- A one-page document with a single word-less (plain) page. -/
def exDocC1 : Document :=
  { pages := [⟨⟨[], 612, "hi".data⟩, false⟩], minerText := "M".data }

/-- Twenty-two pooled positions in steps of 60: the clustering keeps all of
them, and on a page of width 660 the truncated cap is 21 while the rounded cap
would be 22. -/
def ps22 : List ℚ := (List.range 22).map (fun i => (60 * i : ℚ))

/-- Ninety-one positions producing 90 significant gaps: 63 gaps of width 30
followed by 27 gaps of width 40.  The floating-point index `int(90 * 0.70)`
is 62 (gap 30) while the exact index ⌊0.7 × 90⌋ is 63 (gap 40). -/
def ps90 : List ℚ :=
  (List.range 64).map (fun i => (30 * i : ℚ)) ++
    (List.range 27).map (fun i => (1890 + 40 * (i + 1) : ℚ))

/-! ## Helper lemmas on the document-level policy -/

theorem convert_eq_miner_of_fallback {doc : Document} {f pl : ℕ} {chunks : List Text}
    (h : processPages doc.pages = some (f, pl, chunks)) (h1 : pl > f) (h2 : pl > 0) :
    convert doc = mergeText doc.minerText := by
  have hc : pl > f ∧ pl > 0 := ⟨h1, h2⟩
  unfold convert
  rw [h]
  simp only [docMarkdown]
  rw [if_pos hc]
  unfold withEmptyFallback
  rw [ite_self]

theorem convert_eq_miner_of_none {doc : Document}
    (h : processPages doc.pages = none) :
    convert doc = mergeText doc.minerText := by
  unfold convert
  rw [h]
  simp only [docMarkdown]
  unfold withEmptyFallback
  rw [ite_self]

theorem processPages_eq_none {its : List PageItem} (it : PageItem)
    (hm : it ∈ its) (hr : it.raises = true) : processPages its = none := by
  induction its with
  | nil => simp at hm
  | cons a rest ih =>
    rcases List.mem_cons.mp hm with h | h
    · subst h
      simp [processPages, hr]
    · unfold processPages
      rw [ih h]
      split <;> rfl

/-! ## Claim C1 -/

/-- C1: the whole-document fallback is taken iff `plain_pages > form_pages`
and `plain_pages > 0`; when it triggers, every per-page chunk is discarded and
the output is the linear extractor's text for the whole byte stream
(post-processed); otherwise the output is built from the page chunks. -/
theorem c1_document_fallback (doc : Document) (f pl : ℕ) (chunks : List Text)
    (h : processPages doc.pages = some (f, pl, chunks)) :
    (pl > f ∧ pl > 0 → convert doc = mergeText doc.minerText) ∧
    (¬(pl > f ∧ pl > 0) →
      convert doc =
        mergeText (if (stripL (joinChunks chunks)).isEmpty then doc.minerText
                   else stripL (joinChunks chunks))) := by
  constructor
  · rintro ⟨h1, h2⟩
    exact convert_eq_miner_of_fallback h h1 h2
  · intro hn
    unfold convert
    rw [h]
    simp only [docMarkdown]
    rw [if_neg hn]
    rfl

/-- Witness for C1 at a concrete one-plain-page document. -/
theorem c1_document_fallback_witness :
    processPages exDocC1.pages = some (0, 1, ["hi".data]) ∧
      convert exDocC1 = mergeText exDocC1.minerText := by
  have h : processPages exDocC1.pages = some (0, 1, ["hi".data]) := by
    with_unfolding_all decide
  exact ⟨h, (c1_document_fallback exDocC1 0 1 ["hi".data] h).1 ⟨by norm_num, by norm_num⟩⟩

/-! ## Claim C6 -/

theorem natLog2Aux_spec :
    ∀ (fuel n : ℕ), 1 ≤ n → n ≤ fuel →
      2 ^ natLog2Aux fuel n ≤ n ∧ n < 2 ^ (natLog2Aux fuel n + 1) := by
  intro fuel
  induction fuel with
  | zero => intro n h1 h2; omega
  | succ fuel ih =>
    intro n h1 h2
    simp only [natLog2Aux]
    by_cases h : 2 ≤ n
    · rw [if_pos h]
      obtain ⟨ha, hb⟩ := ih (n / 2) (by omega) (by omega)
      rw [pow_succ, pow_succ]
      constructor
      · omega
      · omega
    · rw [if_neg h]
      constructor
      · simpa using h1
      · have hn1 : n = 1 := by omega
        rw [hn1]
        norm_num

theorem natLog2_spec (n : ℕ) (h : 1 ≤ n) :
    2 ^ natLog2 n ≤ n ∧ n < 2 ^ (natLog2 n + 1) :=
  natLog2Aux_spec n n h le_rfl

theorem roundHalfEven_le (x : ℚ) : (roundHalfEven x : ℚ) ≤ x + 1 / 2 := by
  unfold roundHalfEven
  have hf := Int.floor_le x
  split_ifs with h1 h2 h3
  · linarith
  · push_cast
    linarith
  · linarith
  · push_cast
    have := not_lt.mp h1
    linarith

theorem roundHalfEven_nonneg (x : ℚ) (hx : 0 ≤ x) : 0 ≤ (roundHalfEven x : ℚ) := by
  have hf : (0:ℤ) ≤ ⌊x⌋ := Int.floor_nonneg.mpr hx
  have h : (0:ℤ) ≤ roundHalfEven x := by
    unfold roundHalfEven
    split_ifs <;> omega
  exact_mod_cast h

theorem qlog2_spec (x : ℚ) (hx : 0 < x) :
    (2:ℚ) ^ qlog2 x ≤ x ∧ x < 2 ^ (qlog2 x + 1) := by
  have hnum : 0 < x.num := Rat.num_pos.mpr hx
  have hden : 0 < x.den := x.pos
  have hp1 : 1 ≤ x.num.toNat := by omega
  obtain ⟨hpa, hpb⟩ := natLog2_spec x.num.toNat hp1
  obtain ⟨hqa, hqb⟩ := natLog2_spec x.den (by omega)
  have hx_eq : x = (x.num.toNat : ℚ) / (x.den : ℚ) := by
    have hcast : ((x.num.toNat : ℕ) : ℚ) = (x.num : ℚ) := by
      have h0 := Int.toNat_of_nonneg (le_of_lt hnum)
      exact_mod_cast h0
    rw [hcast, Rat.num_div_den]
  have hdQ : (0:ℚ) < (x.den : ℚ) := by exact_mod_cast hden
  set a := natLog2 x.num.toNat with ha
  set b := natLog2 x.den with hb
  have hpaZ : (2:ℚ) ^ ((a : ℤ)) ≤ (x.num.toNat : ℚ) := by
    rw [zpow_natCast]
    exact_mod_cast hpa
  have hpbZ : (x.num.toNat : ℚ) < 2 ^ ((a : ℤ) + 1) := by
    rw [show ((a : ℤ) + 1) = ((a + 1 : ℕ) : ℤ) by push_cast; ring, zpow_natCast]
    exact_mod_cast hpb
  have hqaZ : (2:ℚ) ^ ((b : ℤ)) ≤ (x.den : ℚ) := by
    rw [zpow_natCast]
    exact_mod_cast hqa
  have hqbZ : (x.den : ℚ) < 2 ^ ((b : ℤ) + 1) := by
    rw [show ((b : ℤ) + 1) = ((b + 1 : ℕ) : ℤ) by push_cast; ring, zpow_natCast]
    exact_mod_cast hqb
  have hlow : (2:ℚ) ^ ((a : ℤ) - b - 1) < x := by
    rw [hx_eq, lt_div_iff hdQ]
    calc (2:ℚ) ^ ((a : ℤ) - b - 1) * (x.den : ℚ)
        < 2 ^ ((a : ℤ) - b - 1) * 2 ^ ((b : ℤ) + 1) :=
          mul_lt_mul_of_pos_left hqbZ (zpow_pos (by norm_num) _)
      _ = 2 ^ ((a : ℤ)) := by
          rw [← zpow_add₀ (by norm_num : (2:ℚ) ≠ 0)]
          congr 1
          ring
      _ ≤ (x.num.toNat : ℚ) := hpaZ
  have hhigh : x < (2:ℚ) ^ ((a : ℤ) - b + 1) := by
    rw [hx_eq, div_lt_iff hdQ]
    calc (x.num.toNat : ℚ) < 2 ^ ((a : ℤ) + 1) := hpbZ
      _ = 2 ^ ((a : ℤ) - b + 1) * 2 ^ ((b : ℤ)) := by
          rw [← zpow_add₀ (by norm_num : (2:ℚ) ≠ 0)]
          congr 1
          ring
      _ ≤ 2 ^ ((a : ℤ) - b + 1) * (x.den : ℚ) :=
          mul_le_mul_of_nonneg_left hqaZ (le_of_lt (zpow_pos (by norm_num) _))
  unfold qlog2
  rw [← ha, ← hb]
  by_cases hc : x < 2 ^ ((a : ℤ) - (b : ℤ))
  · rw [if_pos hc]
    constructor
    · exact le_of_lt (by rw [show (a : ℤ) - (b:ℤ) - 1 = (a : ℤ) - b - 1 by ring]; exact hlow)
    · rw [show (a : ℤ) - (b:ℤ) - 1 + 1 = (a : ℤ) - b by ring]
      exact hc
  · rw [if_neg hc]
    exact ⟨not_lt.mp hc,
      by rw [show (a : ℤ) - (b:ℤ) + 1 = (a : ℤ) - b + 1 by ring]; exact hhigh⟩

theorem floatRound_nonneg (x : ℚ) : 0 ≤ floatRound x := by
  unfold floatRound
  split_ifs with h
  · exact le_refl 0
  · have hx : 0 < x := lt_of_not_le h
    have h2 : (0:ℚ) < 2 ^ (qlog2 x - 52) := zpow_pos (by norm_num) _
    exact mul_nonneg (roundHalfEven_nonneg _ (le_of_lt (div_pos hx h2))) (le_of_lt h2)

theorem floatRound_le (x : ℚ) (hx : 0 < x) :
    floatRound x ≤ x + x * (2:ℚ) ^ (-53 : ℤ) := by
  unfold floatRound
  rw [if_neg (not_le.mpr hx)]
  have h2e : (0:ℚ) < 2 ^ (qlog2 x - 52) := zpow_pos (by norm_num) _
  have hb := roundHalfEven_le (x / 2 ^ (qlog2 x - 52))
  have hlog : (2:ℚ) ^ qlog2 x ≤ x := (qlog2_spec x hx).1
  calc (roundHalfEven (x / 2 ^ (qlog2 x - 52)) : ℚ) * 2 ^ (qlog2 x - 52)
      ≤ (x / 2 ^ (qlog2 x - 52) + 1 / 2) * 2 ^ (qlog2 x - 52) :=
        mul_le_mul_of_nonneg_right hb (le_of_lt h2e)
    _ = x + 2 ^ (qlog2 x - 52) / 2 := by
        field_simp
        ring
    _ = x + 2 ^ qlog2 x * (2:ℚ) ^ (-53 : ℤ) := by
        congr 1
        rw [show (2:ℚ) ^ (qlog2 x - 52) / 2 = 2 ^ (qlog2 x - 52) / 2 ^ (1:ℤ) by norm_num]
        rw [← zpow_sub₀ (by norm_num : (2:ℚ) ≠ 0), ← zpow_add₀ (by norm_num : (2:ℚ) ≠ 0)]
        congr 1
        ring
    _ ≤ x + x * (2:ℚ) ^ (-53 : ℤ) := by
        have h53 : (0:ℚ) < (2:ℚ) ^ (-53 : ℤ) := zpow_pos (by norm_num) _
        nlinarith [mul_le_mul_of_nonneg_right hlog (le_of_lt h53)]

theorem pyPercentileIdx_lt (n : ℕ) (hn : 1 ≤ n) : pyPercentileIdx n < n := by
  unfold pyPercentileIdx
  have hnQ : (0:ℚ) < (n : ℚ) := by exact_mod_cast hn
  have hc : (0:ℚ) < c07 := by norm_num [c07]
  have hx : (0:ℚ) < (n : ℚ) * c07 := mul_pos hnQ hc
  have hfl := floatRound_le ((n : ℚ) * c07) hx
  have hkey : c07 * (1 + (2:ℚ) ^ (-53 : ℤ)) < 1 := by
    rw [show ((2:ℚ) ^ (-53 : ℤ)) = 1 / 2 ^ 53 by norm_num [zpow_neg, zpow_natCast]]
    norm_num [c07]
  have hlt : floatRound ((n : ℚ) * c07) < (n : ℚ) := by
    calc floatRound ((n : ℚ) * c07)
        ≤ (n : ℚ) * c07 + (n : ℚ) * c07 * (2:ℚ) ^ (-53 : ℤ) := hfl
      _ = (n : ℚ) * (c07 * (1 + (2:ℚ) ^ (-53 : ℤ))) := by ring
      _ < (n : ℚ) * 1 := mul_lt_mul_of_pos_left hkey hnQ
      _ = (n : ℚ) := mul_one _
  have hnn : 0 ≤ floatRound ((n : ℚ) * c07) := floatRound_nonneg _
  unfold pythonInt
  rw [if_pos hnn]
  have hfloor : ⌊floatRound ((n : ℚ) * c07)⌋ < (n : ℤ) := by
    rw [Int.floor_lt]
    exact_mod_cast hlt
  have hfnn : (0:ℤ) ≤ ⌊floatRound ((n : ℚ) * c07)⌋ := Int.floor_nonneg.mpr hnn
  omega

/-- C6 counterexample: on `ps90` (90 significant gaps — 63 of width 30, then
27 of width 40) the code's percentile index is `int(90 * 0.70) = 62` in
IEEE-754 double arithmetic, selecting gap 30, while the exact 70th-percentile
index ⌊0.7 × 90⌋ = 63 selects gap 40; the two tolerances differ. -/
theorem c6_counterexample :
    computeAdaptiveTolerance ps90 = 30 ∧ claimAdaptiveTolerance ps90 = 40 ∧
      computeAdaptiveTolerance ps90 ≠ claimAdaptiveTolerance ps90 := by
  have h1 : computeAdaptiveTolerance ps90 = 30 := by with_unfolding_all decide
  have h2 : claimAdaptiveTolerance ps90 = 40 := by with_unfolding_all decide
  refine ⟨h1, h2, ?_⟩
  rw [h1, h2]
  norm_num

/-- C6 (amended): with at least three significant gaps, the tolerance is the
sorted-gap value at the index `int(len * 0.70)` as computed in IEEE-754
double arithmetic — equal to ⌊0.7·len⌋ except at lengths such as 90, 170,
180, 330 where it is one less — clamped to `[25, 50]`; otherwise the fixed
fallback 35.  The index is always within the sorted gap list. -/
theorem c6_adaptive_tolerance (ps : List ℚ) :
    (3 ≤ (significantGaps ps).length →
      computeAdaptiveTolerance ps =
        max 25 (min 50
          (((significantGaps ps).mergeSort (fun a b => decide (a ≤ b))).getD
            (pyPercentileIdx (significantGaps ps).length) 0)) ∧
      pyPercentileIdx (significantGaps ps).length < (significantGaps ps).length) ∧
    ((significantGaps ps).length < 3 → computeAdaptiveTolerance ps = 35) := by
  constructor
  · intro h3
    have hne : ¬(significantGaps ps).isEmpty := by
      rcases hg : significantGaps ps with _ | ⟨a, l⟩
      · rw [hg] at h3; simp at h3
      · simp
    have hc : ¬(significantGaps ps).isEmpty ∧ 3 ≤ (significantGaps ps).length := ⟨hne, h3⟩
    constructor
    · unfold computeAdaptiveTolerance
      rw [if_pos hc, List.length_mergeSort]
    · exact pyPercentileIdx_lt _ (by omega)
  · intro hlt
    unfold computeAdaptiveTolerance
    rw [if_neg]
    rintro ⟨-, hge⟩
    omega

/-- Witness for C6 (amended) at a concrete position list with four
significant gaps. -/
theorem c6_adaptive_tolerance_witness :
    3 ≤ (significantGaps [0, 10, 20, 30, 100]).length ∧
      computeAdaptiveTolerance [0, 10, 20, 30, 100] = 25 := by
  refine ⟨by with_unfolding_all decide, ?_⟩
  have h := ((c6_adaptive_tolerance [0, 10, 20, 30, 100]).1 (by with_unfolding_all decide)).1
  rw [h]
  with_unfolding_all decide

/-! ## Claim C5 -/

/-- C5 counterexample: on the pooled positions `ps22` and page width 660 the
builder returns no model (the truncated cap is 21 < 22 boundaries), yet the
claim's rejection disjunction — whose cap uses `round`, giving 22 — is false. -/
theorem c5_counterexample :
    buildColumnModel 660 ps22 = none ∧ claimColumnReject 660 ps22 = false := by
  constructor
  · with_unfolding_all decide
  · with_unfolding_all decide

/-- C5 (amended): the Column Model Builder returns no model exactly when
fewer than 2 boundaries exist, the average column width is below 30, the
density exceeds 10 columns per inch, or the boundary count exceeds the cap
`max(15, int(20 × page_width / 612))`, with Python `int` truncation rather
than rounding. -/
theorem c5_column_model_rejection (w : ℚ) (ps : List ℚ) :
    buildColumnModel w ps = none ↔
      (globalColumns ps).length < 2 ∨
      contentWidthOf (globalColumns ps) / ((globalColumns ps).length : ℚ) < 30 ∨
      ((globalColumns ps).length : ℚ) / (contentWidthOf (globalColumns ps) / 72) > 10 ∨
      ((globalColumns ps).length : ℤ) > max 15 (pythonInt (20 * (w / 612))) := by
  unfold buildColumnModel
  by_cases h1 : 1 < (globalColumns ps).length
  · rw [if_pos h1]
    by_cases h2 : contentWidthOf (globalColumns ps) / ((globalColumns ps).length : ℚ) < 30
    · simp [h2]
    · rw [if_neg h2]
      by_cases h3 :
          ((globalColumns ps).length : ℚ) / (contentWidthOf (globalColumns ps) / 72) > 10
      · simp [h3]
      · rw [if_neg h3]
        by_cases h4 : ((globalColumns ps).length : ℤ) > max 15 (pythonInt (20 * (w / 612)))
        · simp [h4]
        · simp only [if_neg h4, reduceCtorEq, false_iff]
          push_neg
          refine ⟨by omega, le_of_not_lt h2, le_of_not_lt h3, le_of_not_lt h4⟩
  · rw [if_neg h1]
    simp only [true_iff, reduceCtorEq]
    left
    omega

/-! ## Claim C7 -/

/-- C7 counterexample: on `pg16` the Column Model Builder rejects the page,
and the page's contribution is the *stripped* plain text `"hello"`, not the
verbatim plain text `" hello "`. -/
theorem c7_counterexample :
    buildColumnModel pg16.width (sortedPooled pg16) = none ∧
      pageChunk pg16 = some ("hello".data) ∧
      pageChunk pg16 ≠ some pg16.plainText := by
  refine ⟨by with_unfolding_all decide, by with_unfolding_all decide,
    by with_unfolding_all decide⟩

/-- C7 (amended): when the Column Model Builder rejects a page's pooled
positions, the form extractor yields nothing and the page's contribution is
its plain linear-text extraction stripped of surrounding whitespace (omitted
entirely when blank). -/
theorem c7_rejected_page_contribution (p : Page)
    (h : buildColumnModel p.width (sortedPooled p) = none) :
    extract_form_content p = none ∧
    pageChunk p =
      (if (stripL p.plainText).isEmpty then none else some (stripL p.plainText)) := by
  have he : extract_form_content p = none := by
    unfold extract_form_content
    by_cases hw : p.words.isEmpty
    · rw [if_pos hw]
    · rw [if_neg hw]
      by_cases hp : (pooledPositions (pageRows p)).isEmpty
      · rw [if_pos hp]
      · rw [if_neg hp, h]
  refine ⟨he, ?_⟩
  unfold pageChunk
  rw [he]

/-- Witness for C7 (amended) at the concrete rejected page `pg16`. -/
theorem c7_rejected_page_contribution_witness :
    buildColumnModel pg16.width (sortedPooled pg16) = none ∧
      pageChunk pg16 = some (stripL pg16.plainText) := by
  have h : buildColumnModel pg16.width (sortedPooled pg16) = none := by
    with_unfolding_all decide
  exact ⟨h, ((c7_rejected_page_contribution pg16 h).2).trans (by with_unfolding_all decide)⟩

/-! ## Claim C3 -/

/-- C3 counterexample: on `exDocC3` (a raising page followed by a valid form
page), the code's output is the whole-document linear extraction, while the
claimed per-page recovery — which keeps the second page's table — would
produce a different output. -/
theorem c3_counterexample :
    convert exDocC3 = mergeText exDocC3.minerText ∧
      claimConvert exDocC3 ≠ convert exDocC3 := by
  refine ⟨by with_unfolding_all decide, by with_unfolding_all decide⟩

/-- C3 (amended): a failure while processing any page is caught once at the
document level: per-page processing is abandoned and the entire document is
re-extracted with the linear extractor; the conversion still returns a result
instead of propagating the failure. -/
theorem c3_page_failure_policy (doc : Document) (it : PageItem)
    (hm : it ∈ doc.pages) (hr : it.raises = true) :
    convert doc = mergeText doc.minerText :=
  convert_eq_miner_of_none (processPages_eq_none it hm hr)

/-- Witness for C3 (amended) at the concrete document `exDocC3`. -/
theorem c3_page_failure_policy_witness :
    (⟨plainPage1, true⟩ : PageItem) ∈ exDocC3.pages ∧
      convert exDocC3 = mergeText exDocC3.minerText := by
  have hm : (⟨plainPage1, true⟩ : PageItem) ∈ exDocC3.pages := by
    simp [exDocC3]
  exact ⟨hm, c3_page_failure_policy exDocC3 ⟨plainPage1, true⟩ hm rfl⟩

/-! ## Claim C2 -/

theorem extract_cells_foldl_length (cols : List ℚ) (ws : List Word) :
    ∀ cells : List Text,
      (ws.foldl
        (fun cells w =>
          cells.set (assignedCol cols w.x0)
            (cellAppend (cells.getD (assignedCol cols w.x0) []) w.text))
        cells).length = cells.length := by
  induction ws with
  | nil => intro cells; rfl
  | cons w ws ih =>
    intro cells
    simp only [List.foldl_cons]
    rw [ih]
    exact List.length_set cells _ _

theorem extract_cells_length (cols : List ℚ) (ws : List Word) :
    (extract_cells cols ws).length = cols.length := by
  unfold extract_cells
  rw [extract_cells_foldl_length]
  exact List.length_replicate cols.length []

/-- C2: every row of a rendered table's cell array has exactly `num_cols`
cells; the per-region width list has exactly `num_cols` entries, each at least
3 (so the separator row has exactly `num_cols` dash groups, each at least 3
dashes wide); and the rendered region's second line is that separator. -/
theorem c2_rendered_table_shape (cols : List ℚ) (run : List RowInfo) (h : run ≠ []) :
    (∀ row ∈ tableData cols run, row.length = cols.length) ∧
    (tableWidths cols run).length = cols.length ∧
    (∀ w ∈ tableWidths cols run, 3 ≤ w) ∧
    (renderTable cols run).getD 1 [] = sepLine (tableWidths cols run) := by
  refine ⟨?_, ?_, ?_, ?_⟩
  · intro row hrow
    rcases List.mem_map.mp hrow with ⟨info, -, rfl⟩
    exact extract_cells_length cols info.words
  · simp [tableWidths]
  · intro w hw
    rcases List.mem_map.mp hw with ⟨c, -, rfl⟩
    exact le_max_right _ 3
  · have hne : (tableData cols run).isEmpty = false := by
      unfold tableData
      cases run with
      | nil => exact absurd rfl h
      | cons a l => rfl
    unfold renderTable
    rw [if_neg (by rw [hne]; exact Bool.false_ne_true)]
    rfl

/-- A one-row, one-word table region used as a concrete witness input. -/
def exRun : List RowInfo :=
  [{ words := [⟨"a".data, 0, 10, 0⟩]
     text := "a".data
     xGroups := [0]
     isParagraph := false
     hasPartialNumbering := false }]

/-- Witness for C2 at a concrete two-column region. -/
theorem c2_rendered_table_shape_witness :
    exRun ≠ [] ∧ (tableWidths [0, 100] exRun).length = ([0, 100] : List ℚ).length := by
  exact ⟨by simp [exRun], (c2_rendered_table_shape [0, 100] exRun (by simp [exRun])).2.1⟩

/-! ## Claim C10 -/

theorem processPages_map_ok (ps : List Page) :
    processPages (ps.map (fun p => ⟨p, false⟩)) =
      some (ps.countP (fun p => (extract_form_content p).isSome),
            ps.countP (fun p => (extract_form_content p).isNone),
            ps.flatMap (fun p => (pageChunk p).toList)) := by
  induction ps with
  | nil => rfl
  | cons p ps ih =>
    simp only [List.map_cons, processPages, ih]
    cases h : extract_form_content p with
    | none => simp [h, List.countP_cons, List.flatMap_cons]
    | some v => simp [h, List.countP_cons, List.flatMap_cons]

/-- C10: a page with an empty word list yields no form content (hence is
tallied as a plain page), and a document in which word-less pages form a
strict majority has `plain_pages > form_pages` with at least one plain page,
so the whole document is re-extracted with the linear extractor. -/
theorem c10_wordless_pages (ps : List Page) (mt : Text)
    (h : ps.length < 2 * ps.countP (fun p => p.words.isEmpty)) :
    (∀ p ∈ ps, p.words = [] → extract_form_content p = none) ∧
    ps.countP (fun p => (extract_form_content p).isNone) >
      ps.countP (fun p => (extract_form_content p).isSome) ∧
    0 < ps.countP (fun p => (extract_form_content p).isNone) ∧
    convert ⟨ps.map (fun p => ⟨p, false⟩), mt⟩ = mergeText mt := by
  have hnone : ∀ p : Page, p.words.isEmpty = true → extract_form_content p = none := by
    intro p hw
    unfold extract_form_content
    rw [if_pos hw]
  have hle : ps.countP (fun p => p.words.isEmpty) ≤
      ps.countP (fun p => (extract_form_content p).isNone) := by
    refine List.countP_mono_left ?_
    intro p hp hw
    rw [hnone p hw]
    rfl
  have hsum : ps.length = ps.countP (fun p => (extract_form_content p).isSome) +
      ps.countP (fun p => (extract_form_content p).isNone) := by
    have h0 := List.length_eq_countP_add_countP (fun p => (extract_form_content p).isSome) ps
    have h1 : ps.countP (fun p => decide ¬(extract_form_content p).isSome = true) =
        ps.countP (fun p => (extract_form_content p).isNone) := by
      refine List.countP_congr ?_
      intro p hp
      cases extract_form_content p <;> simp
    rw [h0, h1]
  have hgt : ps.countP (fun p => (extract_form_content p).isNone) >
      ps.countP (fun p => (extract_form_content p).isSome) := by omega
  have hpos : 0 < ps.countP (fun p => (extract_form_content p).isNone) := by omega
  refine ⟨?_, hgt, hpos, ?_⟩
  · intro p hp hw
    exact hnone p (by rw [hw]; rfl)
  · exact convert_eq_miner_of_fallback (processPages_map_ok ps) hgt hpos

/-- Witness for C10 at a one-page document whose page has no words. -/
theorem c10_wordless_pages_witness :
    ([⟨[], 612, "hi".data⟩] : List Page).length <
        2 * ([⟨[], 612, "hi".data⟩] : List Page).countP (fun p => p.words.isEmpty) ∧
      convert ⟨([⟨[], 612, "hi".data⟩] : List Page).map (fun p => ⟨p, false⟩), "M".data⟩ =
        mergeText ("M".data) := by
  refine ⟨by decide, ?_⟩
  exact (c10_wordless_pages [⟨[], 612, "hi".data⟩] ("M".data) (by decide)).2.2.2

/-! ## Claim C4 -/

/-- The join of a cell's word texts in arrival order, with the same
empty-cell handling as `extract_cells` (a single space between texts). -/
def spaceJoin (ts : List Text) : Text := ts.foldl cellAppend []

theorem spaceJoin_append (ts : List Text) (t : Text) :
    spaceJoin (ts ++ [t]) = cellAppend (spaceJoin ts) t := by
  unfold spaceJoin
  rw [List.foldl_append]
  rfl

theorem assignedColAux_le (x : ℚ) :
    ∀ (bs : List ℚ) (i : ℕ), assignedColAux x i bs ≤ i + bs.length := by
  intro bs
  induction bs with
  | nil => intro i; simp [assignedColAux]
  | cons b bs ih =>
    intro i
    simp only [assignedColAux, List.length_cons]
    split
    · omega
    · have := ih (i + 1)
      omega

theorem assignedCol_lt (cols : List ℚ) (x : ℚ) (h : cols ≠ []) :
    assignedCol cols x < cols.length := by
  cases cols with
  | nil => exact absurd rfl h
  | cons c t =>
    unfold assignedCol
    simp only [List.tail_cons, List.length_cons]
    have := assignedColAux_le x t 0
    omega

theorem assignedColAux_eq_countP (x : ℚ) :
    ∀ (bs : List ℚ) (i : ℕ), bs.Pairwise (· < ·) →
      assignedColAux x i bs = i + bs.countP (fun b => decide (b ≤ x + 20)) := by
  intro bs
  induction bs with
  | nil => intro i _; simp [assignedColAux]
  | cons b bs ih =>
    intro i hp
    rw [List.pairwise_cons] at hp
    simp only [assignedColAux]
    by_cases hb : x < b - 20
    · rw [if_pos hb]
      have hz : (b :: bs).countP (fun b => decide (b ≤ x + 20)) = 0 := by
        rw [List.countP_eq_zero]
        intro a ha
        rcases List.mem_cons.mp ha with rfl | ha
        · simp only [decide_eq_true_eq]
          intro hle
          linarith
        · have hba := hp.1 a ha
          simp only [decide_eq_true_eq]
          intro hle
          linarith
      rw [hz]
      omega
    · rw [if_neg hb, ih (i + 1) hp.2, List.countP_cons]
      have hble : b ≤ x + 20 := by linarith [not_lt.mp hb]
      simp [hble]
      omega

theorem assignedCol_eq_countP (cols : List ℚ) (x : ℚ) (h : cols.Pairwise (· < ·)) :
    assignedCol cols x = cols.countP (fun b => decide (b ≤ x + 20)) - 1 := by
  cases cols with
  | nil => rfl
  | cons c t =>
    rw [List.pairwise_cons] at h
    unfold assignedCol
    simp only [List.tail_cons]
    rw [assignedColAux_eq_countP x t 0 h.2, List.countP_cons]
    by_cases hc : c ≤ x + 20
    · simp [hc]
    · have hz : t.countP (fun b => decide (b ≤ x + 20)) = 0 := by
        rw [List.countP_eq_zero]
        intro a ha
        have hca := h.1 a ha
        simp only [decide_eq_true_eq]
        intro hle
        exact hc (by linarith)
      simp [hc, hz]

theorem sorted_getElem_le_iff (x : ℚ) :
    ∀ (cols : List ℚ), cols.Pairwise (· < ·) → ∀ j (hj : j < cols.length),
      (cols[j] ≤ x + 20 ↔ j < cols.countP (fun b => decide (b ≤ x + 20))) := by
  intro cols
  induction cols with
  | nil => intro _ j hj; simp at hj
  | cons c t ih =>
    intro hp j hj
    rw [List.pairwise_cons] at hp
    rw [List.countP_cons]
    by_cases hc : c ≤ x + 20
    · cases j with
      | zero =>
        simp only [List.getElem_cons_zero]
        simp [hc]
      | succ j =>
        have hjt : j < t.length := by simpa using hj
        simp only [List.getElem_cons_succ]
        rw [ih hp.2 j hjt, if_pos (show decide (c ≤ x + 20) = true by simp [hc])]
        omega
    · have hz : t.countP (fun b => decide (b ≤ x + 20)) = 0 := by
        rw [List.countP_eq_zero]
        intro a ha
        have hca := hp.1 a ha
        simp only [decide_eq_true_eq]
        intro hle
        exact hc (by linarith)
      cases j with
      | zero =>
        simp only [List.getElem_cons_zero]
        simp [hc, hz]
      | succ j =>
        have hjt : j < t.length := by simpa using hj
        simp only [List.getElem_cons_succ]
        have hmem : t[j] ∈ t := List.getElem_mem hjt
        have hnle : ¬(t[j] ≤ x + 20) := by
          have := hp.1 _ hmem
          intro hle
          exact hc (by linarith)
        simp [hnle, hc, hz]

theorem extract_cells_step (cols : List ℚ) (ws : List Word) (w : Word) :
    extract_cells cols (ws ++ [w]) =
      (extract_cells cols ws).set (assignedCol cols w.x0)
        (cellAppend ((extract_cells cols ws).getD (assignedCol cols w.x0) []) w.text) := by
  unfold extract_cells
  rw [List.foldl_append]
  rfl

theorem extract_cells_eq_filtered (cols : List ℚ) :
    ∀ ws : List Word,
      extract_cells cols ws =
        (List.range cols.length).map
          (fun c => spaceJoin
            ((ws.filter (fun w => decide (assignedCol cols w.x0 = c))).map (·.text))) := by
  intro ws
  induction ws using List.reverseRecOn with
  | nil =>
    apply List.ext_getElem
    · simp [extract_cells_length]
    · intro i h1 h2
      simp [extract_cells, List.getElem_replicate, spaceJoin]
  | append_singleton ws w ih =>
    rw [extract_cells_step, ih]
    apply List.ext_getElem
    · simp [List.length_set]
    · intro i h1 h2
      rw [List.getElem_set]
      simp only [List.getElem_map, List.getElem_range]
      rw [List.filter_append]
      have hn : i < cols.length := by simpa using h2
      by_cases hji : assignedCol cols w.x0 = i
      · rw [if_pos hji]
        have hfw : [w].filter (fun w' => decide (assignedCol cols w'.x0 = i)) = [w] := by
          simp [hji]
        rw [hfw, List.map_append, List.map_singleton, spaceJoin_append]
        have hget :
            ((List.range cols.length).map
              (fun c => spaceJoin
                ((ws.filter (fun w' => decide (assignedCol cols w'.x0 = c))).map
                  (·.text)))).getD (assignedCol cols w.x0) [] =
            spaceJoin ((ws.filter (fun w' => decide (assignedCol cols w'.x0 = i))).map (·.text)) := by
          rw [hji]
          rw [List.getD_eq_getElem?_getD, List.getElem?_eq_getElem (by simpa using hn)]
          simp
        rw [hget]
      · rw [if_neg hji]
        have hfw : [w].filter (fun w' => decide (assignedCol cols w'.x0 = i)) = [] := by
          simp [hji]
        rw [hfw, List.append_nil]

/-- C4 counterexample: with boundaries [100, 200] and a word starting at
x0 = 95 the code assigns column 0, while the claim's rule — last column whose
start boundary is at or before x0 − 20, defaulting to the final column —
assigns column 1. -/
theorem c4_counterexample :
    assignedCol [100, 200] 95 = 0 ∧ claimAssignedCol [100, 200] 95 = 1 ∧
      assignedCol [100, 200] 95 ≠ claimAssignedCol [100, 200] 95 := by
  refine ⟨by with_unfolding_all decide, by with_unfolding_all decide,
    by with_unfolding_all decide⟩

/-- C4 (amended): with strictly ascending boundaries, a word is assigned to
the last column whose start boundary is at or before `word.x0 + 20` — column
`k − 1` where `k` counts qualifying boundaries — defaulting to the first
column when no boundary qualifies; words assigned to the same cell are joined
with a single space in left-to-right order. -/
theorem c4_renderer_assignment (cols : List ℚ) (x : ℚ) (h : cols.Pairwise (· < ·)) :
    assignedCol cols x = cols.countP (fun b => decide (b ≤ x + 20)) - 1 ∧
    (∀ j, (hj : j < cols.length) →
      (cols[j] ≤ x + 20 ↔ j < cols.countP (fun b => decide (b ≤ x + 20)))) ∧
    (∀ ws : List Word,
      extract_cells cols ws =
        (List.range cols.length).map
          (fun c => spaceJoin
            ((ws.filter (fun w => decide (assignedCol cols w.x0 = c))).map (·.text)))) :=
  ⟨assignedCol_eq_countP cols x h, sorted_getElem_le_iff x cols h,
    fun ws => extract_cells_eq_filtered cols ws⟩

/-- Witness for C4 (amended) at boundaries [100, 200] and x0 = 185. -/
theorem c4_renderer_assignment_witness :
    List.Pairwise (· < ·) ([100, 200] : List ℚ) ∧ assignedCol [100, 200] 185 = 1 := by
  have hp : List.Pairwise (· < ·) ([100, 200] : List ℚ) := by
    with_unfolding_all decide
  exact ⟨hp, ((c4_renderer_assignment [100, 200] 185 hp).1).trans (by with_unfolding_all decide)⟩

/-! ## Claim C9 -/

theorem flatMap_congr_on {α : Type} {l : List ℕ} {f g : ℕ → List α}
    (h : ∀ c ∈ l, f c = g c) : l.flatMap f = l.flatMap g := by
  induction l with
  | nil => rfl
  | cons a l ih =>
    rw [List.flatMap_cons, List.flatMap_cons, h a (List.mem_cons_self a l),
      ih (fun c hc => h c (List.mem_cons_of_mem a hc))]

theorem flatMap_range_filter_perm {α : Type} (f : α → ℕ) :
    ∀ (ws : List α) (n : ℕ), (∀ w ∈ ws, f w < n) →
      ((List.range n).flatMap (fun c => ws.filter (fun w => decide (f w = c)))).Perm ws := by
  intro ws
  induction ws with
  | nil =>
    intro n _
    have : (List.range n).flatMap (fun c => ([] : List α).filter
        (fun w => decide (f w = c))) = [] := by
      simp
    rw [this]
  | cons w ws ih =>
    intro n h
    have hw : f w < n := h w (List.mem_cons_self w ws)
    have hws : ∀ a ∈ ws, f a < n := fun a ha => h a (List.mem_cons_of_mem w ha)
    have hsplit : List.range n =
        List.range' 0 (f w) ++ f w :: List.range' (f w + 1) (n - f w - 1) := by
      rw [List.range_eq_range']
      have e1 : List.range' 0 (f w) ++ List.range' (f w) (n - f w) = List.range' 0 n := by
        have := List.range'_append 0 (f w) (n - f w) 1
        simp only [one_mul, Nat.zero_add] at this
        rw [this]
        congr 1
        omega
      have e2 : List.range' (f w) (n - f w) = f w :: List.range' (f w + 1) (n - f w - 1) := by
        have hnf : n - f w = (n - f w - 1) + 1 := by omega
        rw [hnf, List.range'_succ]
        simp
      rw [← e1, e2]
    have hfilter0 : (w :: ws).filter (fun a => decide (f a = f w)) =
        w :: ws.filter (fun a => decide (f a = f w)) := by
      rw [List.filter_cons]
      simp
    have hfilter_ne : ∀ c, c ≠ f w →
        (w :: ws).filter (fun a => decide (f a = c)) =
          ws.filter (fun a => decide (f a = c)) := by
      intro c hc
      rw [List.filter_cons,
        if_neg (by simp only [decide_eq_true_eq]; exact fun he => hc he.symm)]
    rw [hsplit, List.flatMap_append, List.flatMap_cons, hfilter0]
    rw [flatMap_congr_on (f := fun c => (w :: ws).filter (fun a => decide (f a = c)))
      (g := fun c => ws.filter (fun a => decide (f a = c)))
      (fun c hc => hfilter_ne c (by
        have := List.mem_range'_1.mp hc
        omega))]
    rw [flatMap_congr_on (l := List.range' (f w + 1) (n - f w - 1))
      (f := fun c => (w :: ws).filter (fun a => decide (f a = c)))
      (g := fun c => ws.filter (fun a => decide (f a = c)))
      (fun c hc => hfilter_ne c (by
        have := List.mem_range'_1.mp hc
        omega))]
    have hassoc :
        (List.range' 0 (f w)).flatMap (fun c => ws.filter (fun a => decide (f a = c))) ++
          (w :: ws.filter (fun a => decide (f a = f w)) ++
            (List.range' (f w + 1) (n - f w - 1)).flatMap
              (fun c => ws.filter (fun a => decide (f a = c)))) =
        (List.range' 0 (f w)).flatMap (fun c => ws.filter (fun a => decide (f a = c))) ++
          w :: (ws.filter (fun a => decide (f a = f w)) ++
            (List.range' (f w + 1) (n - f w - 1)).flatMap
              (fun c => ws.filter (fun a => decide (f a = c)))) := by
      simp
    rw [hassoc]
    refine List.Perm.trans List.perm_middle ?_
    apply List.Perm.cons
    have hre :
        (List.range' 0 (f w)).flatMap (fun c => ws.filter (fun a => decide (f a = c))) ++
          (ws.filter (fun a => decide (f a = f w)) ++
            (List.range' (f w + 1) (n - f w - 1)).flatMap
              (fun c => ws.filter (fun a => decide (f a = c)))) =
        (List.range n).flatMap (fun c => ws.filter (fun a => decide (f a = c))) := by
      rw [hsplit, List.flatMap_append, List.flatMap_cons]
    rw [hre]
    exact ih n hws

/-- C9: each word of a row lands in exactly one cell; the per-cell word lists
are a permutation of the row's words (no word dropped or duplicated,
regardless of its distance from any boundary); and the rendered cells are the
space-joins of those per-cell lists. -/
theorem c9_cells_partition_words (cols : List ℚ) (ws : List Word) (h : cols ≠ []) :
    (∀ w ∈ ws,
      (List.range cols.length).countP (fun c => decide (assignedCol cols w.x0 = c)) = 1) ∧
    ((List.range cols.length).flatMap
        (fun c => ws.filter (fun w => decide (assignedCol cols w.x0 = c)))).Perm ws ∧
    extract_cells cols ws =
      (List.range cols.length).map
        (fun c => spaceJoin
          ((ws.filter (fun w => decide (assignedCol cols w.x0 = c))).map (·.text))) := by
  refine ⟨?_, ?_, extract_cells_eq_filtered cols ws⟩
  · intro w hw
    have hv : assignedCol cols w.x0 < cols.length := assignedCol_lt cols w.x0 h
    have hcc : (List.range cols.length).countP
        (fun c => decide (assignedCol cols w.x0 = c)) =
        (List.range cols.length).count (assignedCol cols w.x0) := by
      refine List.countP_congr ?_
      intro c hc
      by_cases he : assignedCol cols w.x0 = c
      · subst he; simp
      · simp [he, Ne.symm he]
    rw [hcc]
    exact List.count_eq_one_of_mem (List.nodup_range cols.length)
      (List.mem_range.mpr hv)
  · exact flatMap_range_filter_perm (fun w => assignedCol cols w.x0) ws cols.length
      (fun w _ => assignedCol_lt cols w.x0 h)

/-- Witness for C9 at a concrete two-column row. -/
theorem c9_cells_partition_words_witness :
    ([0, 100] : List ℚ) ≠ [] ∧
      ((List.range ([0, 100] : List ℚ).length).flatMap
        (fun c => [(⟨"a".data, 0, 10, 0⟩ : Word), ⟨"b".data, 100, 110, 0⟩].filter
          (fun w => decide (assignedCol [0, 100] w.x0 = c)))).Perm
        [(⟨"a".data, 0, 10, 0⟩ : Word), ⟨"b".data, 100, 110, 0⟩] := by
  refine ⟨by simp, ?_⟩
  exact (c9_cells_partition_words [0, 100]
    [⟨"a".data, 0, 10, 0⟩, ⟨"b".data, 100, 110, 0⟩] (by simp)).2.1

/-! ## Claim C8 -/

theorem dropWhile_eq_self_of_head (p : Char → Bool) :
    ∀ l : Line, (∀ c, l.head? = some c → p c = false) → l.dropWhile p = l := by
  intro l h
  cases l with
  | nil => rfl
  | cons c cs =>
    have hc := h c rfl
    simp [List.dropWhile_cons, hc]

theorem head?_dropWhile (p : Char → Bool) :
    ∀ (l : Line) (c : Char), (l.dropWhile p).head? = some c → p c = false := by
  intro l
  induction l with
  | nil => intro c h; simp at h
  | cons a as ih =>
    intro c h
    rw [List.dropWhile_cons] at h
    by_cases hp : p a
    · rw [if_pos hp] at h
      exact ih c h
    · rw [if_neg hp] at h
      simp only [List.head?_cons, Option.some.injEq] at h
      subst h
      simpa using hp

theorem getLast?_dropWhile (p : Char → Bool) :
    ∀ l : Line, l.dropWhile p ≠ [] → (l.dropWhile p).getLast? = l.getLast? := by
  intro l
  induction l with
  | nil => intro h; exact absurd rfl h
  | cons a as ih =>
    intro h
    rw [List.dropWhile_cons] at h ⊢
    by_cases hp : p a
    · rw [if_pos hp] at h ⊢
      rw [ih h]
      have has : as ≠ [] := by
        intro he
        rw [he] at h
        simp at h
      cases as with
      | nil => exact absurd rfl has
      | cons b bs => rw [List.getLast?_cons_cons]
    · rw [if_neg hp]

theorem head?_stripL (l : Line) (c : Char) (h : (stripL l).head? = some c) : isWS c = false := by
  unfold stripL at h
  rw [List.head?_reverse] at h
  have hne : (l.dropWhile isWS).reverse.dropWhile isWS ≠ [] := by
    intro he
    rw [he] at h
    simp at h
  rw [getLast?_dropWhile isWS _ hne, List.getLast?_reverse] at h
  exact head?_dropWhile isWS l c h

theorem getLast?_stripL (l : Line) (c : Char) (h : (stripL l).getLast? = some c) :
    isWS c = false := by
  unfold stripL at h
  rw [List.getLast?_reverse] at h
  exact head?_dropWhile isWS _ c h

theorem stripL_eq_self (l : Line)
    (h1 : ∀ c, l.head? = some c → isWS c = false)
    (h2 : ∀ c, l.getLast? = some c → isWS c = false) : stripL l = l := by
  unfold stripL
  rw [dropWhile_eq_self_of_head isWS l h1]
  rw [dropWhile_eq_self_of_head isWS l.reverse
    (fun c hc => h2 c (by rwa [List.head?_reverse] at hc))]
  exact List.reverse_reverse l

theorem isPartialNumbering_head (l : Line) (h : isPartialNumbering l = true) :
    ∃ rest, l = '.' :: rest := by
  cases l with
  | nil => simp [isPartialNumbering] at h
  | cons c rest =>
    simp only [isPartialNumbering, Bool.and_eq_true, decide_eq_true_eq] at h
    exact ⟨rest, by rw [h.1.1]⟩

theorem stripL_ne_nil_of_not_blank {l : Line} (h : isBlank l = false) : stripL l ≠ [] := by
  intro he
  unfold isBlank at h
  rw [he] at h
  simp at h

theorem stripL_merged_eq (l nxt : Line)
    (hl : isPartialNumbering (stripL l) = true)
    (hn : isBlank nxt = false) :
    stripL (stripL l ++ ' ' :: stripL nxt) = stripL l ++ ' ' :: stripL nxt := by
  obtain ⟨rest, hrest⟩ := isPartialNumbering_head _ hl
  have hnne : stripL nxt ≠ [] := stripL_ne_nil_of_not_blank hn
  apply stripL_eq_self
  · intro c hc
    rw [hrest] at hc
    simp only [List.cons_append, List.head?_cons, Option.some.injEq] at hc
    subst hc
    decide
  · intro c hc
    rw [List.getLast?_append_of_ne_nil (stripL l) (by simp)] at hc
    cases hu : stripL nxt with
    | nil => exact absurd hu hnne
    | cons u us =>
      rw [hu, List.getLast?_cons_cons] at hc
      exact getLast?_stripL nxt c (by rw [hu]; exact hc)

theorem merged_not_numbering (l nxt : Line)
    (hl : isPartialNumbering (stripL l) = true)
    (hn : isBlank nxt = false) :
    isPartialNumbering (stripL (stripL l ++ ' ' :: stripL nxt)) = false := by
  rw [stripL_merged_eq l nxt hl hn]
  obtain ⟨rest, hrest⟩ := isPartialNumbering_head _ hl
  rw [hrest]
  simp only [List.cons_append, isPartialNumbering, List.all_append, List.all_cons]
  have hsp : (' ').isDigit = false := by decide
  simp [hsp]

/-- The invariant left behind by one merge pass: any remaining line whose
stripped content is a bare numbering is followed exclusively by blank lines. -/
def Good : List Line → Prop
  | [] => True
  | l :: ls => (isPartialNumbering (stripL l) = true → ∀ x ∈ ls, isBlank x = true) ∧ Good ls

theorem findNonBlank_eq_none (ls : List Line) :
    findNonBlank ls = none ↔ ∀ x ∈ ls, isBlank x = true := by
  induction ls with
  | nil => simp [findNonBlank]
  | cons l ls ih =>
    simp only [findNonBlank]
    by_cases hb : isBlank l
    · rw [if_pos hb, ih]
      constructor
      · intro h x hx
        rcases List.mem_cons.mp hx with rfl | hx
        · exact hb
        · exact h x hx
      · intro h x hx
        exact h x (List.mem_cons_of_mem l hx)
    · rw [if_neg hb]
      constructor
      · intro h
        simp at h
      · intro h
        exact absurd (h l (List.mem_cons_self l ls)) hb

theorem findNonBlank_not_blank : ∀ {ls : List Line} {nxt : Line} {rest : List Line},
    findNonBlank ls = some (nxt, rest) → isBlank nxt = false := by
  intro ls
  induction ls with
  | nil => intro nxt rest h; simp [findNonBlank] at h
  | cons l ls ih =>
    intro nxt rest h
    simp only [findNonBlank] at h
    by_cases hb : isBlank l
    · rw [if_pos hb] at h
      exact ih h
    · rw [if_neg hb] at h
      simp only [Option.some.injEq, Prod.mk.injEq] at h
      rw [← h.1]
      exact Bool.eq_false_iff.mpr hb

theorem findNonBlank_mem : ∀ {ls : List Line} {nxt : Line} {rest : List Line},
    findNonBlank ls = some (nxt, rest) → nxt ∈ ls ∧ ∀ x ∈ rest, x ∈ ls := by
  intro ls
  induction ls with
  | nil => intro nxt rest h; simp [findNonBlank] at h
  | cons l ls ih =>
    intro nxt rest h
    simp only [findNonBlank] at h
    by_cases hb : isBlank l
    · rw [if_pos hb] at h
      obtain ⟨h1, h2⟩ := ih h
      exact ⟨List.mem_cons_of_mem l h1, fun x hx => List.mem_cons_of_mem l (h2 x hx)⟩
    · rw [if_neg hb] at h
      simp only [Option.some.injEq, Prod.mk.injEq] at h
      constructor
      · rw [← h.1]
        exact List.mem_cons_self l ls
      · intro x hx
        rw [← h.2] at hx
        exact List.mem_cons_of_mem l hx

theorem mergeLines_nil : mergeLines [] = [] := by simp [mergeLines]

theorem mergeLines_cons_other (l : Line) (ls : List Line)
    (hp : ¬(isPartialNumbering (stripL l) = true)) :
    mergeLines (l :: ls) = l :: mergeLines ls := by
  rw [mergeLines, if_neg hp]

theorem mergeLines_cons_none (l : Line) (ls : List Line)
    (hp : isPartialNumbering (stripL l) = true) (hf : findNonBlank ls = none) :
    mergeLines (l :: ls) = l :: mergeLines ls := by
  rw [mergeLines, if_pos hp]
  split
  · rename_i nxt rest heq
    rw [hf] at heq
    exact absurd heq (by simp)
  · rfl

theorem mergeLines_cons_some (l : Line) (ls : List Line) (nxt : Line) (rest : List Line)
    (hp : isPartialNumbering (stripL l) = true)
    (hf : findNonBlank ls = some (nxt, rest)) :
    mergeLines (l :: ls) = (stripL l ++ ' ' :: stripL nxt) :: mergeLines rest := by
  rw [mergeLines, if_pos hp]
  split
  · rename_i nxt2 rest2 heq
    rw [hf] at heq
    simp only [Option.some.injEq, Prod.mk.injEq] at heq
    rw [heq.1, heq.2]
  · rename_i heq
    rw [hf] at heq
    exact absurd heq (by simp)

theorem good_of_all_blank (ls : List Line) (h : ∀ x ∈ ls, isBlank x = true) : Good ls := by
  induction ls with
  | nil => trivial
  | cons l ls ih =>
    exact ⟨fun _ x hx => h x (List.mem_cons_of_mem l hx),
      ih (fun x hx => h x (List.mem_cons_of_mem l hx))⟩

theorem mergeLines_of_good : ∀ ls : List Line, Good ls → mergeLines ls = ls := by
  intro ls
  induction ls using mergeLines.induct with
  | case1 => intro _; exact mergeLines_nil
  | case2 l ls hp nxt rest hf ih =>
    intro hg
    have hnone : findNonBlank ls = none := (findNonBlank_eq_none ls).mpr (hg.1 hp)
    rw [hnone] at hf
    exact absurd hf (by simp)
  | case3 l ls hp hf ih =>
    intro hg
    rw [mergeLines_cons_none l ls hp hf, ih hg.2]
  | case4 l ls hp ih =>
    intro hg
    rw [mergeLines_cons_other l ls hp, ih hg.2]

theorem mergeLines_good : ∀ ls : List Line, Good (mergeLines ls) := by
  intro ls
  induction ls using mergeLines.induct with
  | case1 =>
    rw [mergeLines_nil]
    trivial
  | case2 l ls hp nxt rest hf ih =>
    rw [mergeLines_cons_some l ls nxt rest hp hf]
    refine ⟨?_, ih⟩
    intro hpm
    rw [merged_not_numbering l nxt hp (findNonBlank_not_blank hf)] at hpm
    exact absurd hpm (by simp)
  | case3 l ls hp hf ih =>
    rw [mergeLines_cons_none l ls hp hf]
    have hbl : ∀ x ∈ ls, isBlank x = true := (findNonBlank_eq_none ls).mp hf
    rw [mergeLines_of_good ls (good_of_all_blank ls hbl)]
    exact ⟨fun _ x hx => hbl x hx, good_of_all_blank ls hbl⟩
  | case4 l ls hp ih =>
    rw [mergeLines_cons_other l ls hp]
    exact ⟨fun hpm => absurd hpm hp, ih⟩

theorem mem_stripL {l : Line} {c : Char} (h : c ∈ stripL l) : c ∈ l := by
  unfold stripL at h
  rw [List.mem_reverse] at h
  have h1 := (List.dropWhile_sublist (l := (l.dropWhile isWS).reverse) isWS).subset h
  rw [List.mem_reverse] at h1
  exact (List.dropWhile_sublist (l := l) isWS).subset h1

theorem mergeLines_no_newline : ∀ ls : List Line, (∀ l ∈ ls, '\n' ∉ l) →
    ∀ m ∈ mergeLines ls, '\n' ∉ m := by
  intro ls
  induction ls using mergeLines.induct with
  | case1 =>
    intro _ m hm
    rw [mergeLines_nil] at hm
    simp at hm
  | case2 l ls hp nxt rest hf ih =>
    intro hfree m hm
    rw [mergeLines_cons_some l ls nxt rest hp hf] at hm
    rcases List.mem_cons.mp hm with rfl | hm
    · intro hmem
      rcases List.mem_append.mp hmem with h1 | h1
      · exact hfree l (List.mem_cons_self l ls) (mem_stripL h1)
      · rcases List.mem_cons.mp h1 with he | h1
        · exact absurd he (by decide)
        · exact hfree nxt (List.mem_cons_of_mem l (findNonBlank_mem hf).1) (mem_stripL h1)
    · exact ih
        (fun x hx => hfree x (List.mem_cons_of_mem l ((findNonBlank_mem hf).2 x hx))) m hm
  | case3 l ls hp hf ih =>
    intro hfree m hm
    rw [mergeLines_cons_none l ls hp hf] at hm
    rcases List.mem_cons.mp hm with rfl | hm
    · exact hfree m (List.mem_cons_self m ls)
    · exact ih (fun x hx => hfree x (List.mem_cons_of_mem l hx)) m hm
  | case4 l ls hp ih =>
    intro hfree m hm
    rw [mergeLines_cons_other l ls hp] at hm
    rcases List.mem_cons.mp hm with rfl | hm
    · exact hfree m (List.mem_cons_self m ls)
    · exact ih (fun x hx => hfree x (List.mem_cons_of_mem l hx)) m hm

theorem splitLines_ne_nil : ∀ t : Text, splitLines t ≠ [] := by
  intro t
  cases t with
  | nil => simp [splitLines]
  | cons c cs =>
    simp only [splitLines]
    by_cases hc : c = '\n'
    · rw [if_pos hc]
      simp
    · rw [if_neg hc]
      cases splitLines cs with
      | nil => simp
      | cons l ls => simp

theorem mergeLines_ne_nil : ∀ ls : List Line, ls ≠ [] → mergeLines ls ≠ [] := by
  intro ls h
  cases ls with
  | nil => exact absurd rfl h
  | cons l ls =>
    by_cases hp : isPartialNumbering (stripL l) = true
    · cases hf : findNonBlank ls with
      | none =>
        rw [mergeLines_cons_none l ls hp hf]
        simp
      | some pr =>
        obtain ⟨nxt, rest⟩ := pr
        rw [mergeLines_cons_some l ls nxt rest hp hf]
        simp
    · rw [mergeLines_cons_other l ls hp]
      simp

theorem splitLines_no_newline : ∀ t : Text, ∀ l ∈ splitLines t, '\n' ∉ l := by
  intro t
  induction t with
  | nil =>
    intro l hl
    simp only [splitLines, List.mem_singleton] at hl
    rw [hl]
    simp
  | cons c cs ih =>
    intro l hl
    simp only [splitLines] at hl
    by_cases hc : c = '\n'
    · rw [if_pos hc] at hl
      rcases List.mem_cons.mp hl with rfl | hl
      · simp
      · exact ih l hl
    · rw [if_neg hc] at hl
      cases hsp : splitLines cs with
      | nil => exact absurd hsp (splitLines_ne_nil cs)
      | cons h0 tl =>
        rw [hsp] at hl
        rcases List.mem_cons.mp hl with rfl | hl
        · intro hmem
          rcases List.mem_cons.mp hmem with he | hmem
          · exact hc he.symm
          · exact ih h0 (by rw [hsp]; exact List.mem_cons_self h0 tl) hmem
        · exact ih l (by rw [hsp]; exact List.mem_cons_of_mem h0 hl)

theorem splitLines_single {l : Line} (h : '\n' ∉ l) : splitLines l = [l] := by
  induction l with
  | nil => rfl
  | cons c cs ih =>
    have hc : ¬(c = '\n') := fun he => h (he ▸ List.mem_cons_self c cs)
    simp only [splitLines, if_neg hc]
    rw [ih (fun hm => h (List.mem_cons_of_mem c hm))]

theorem splitLines_append {l : Line} (h : '\n' ∉ l) (t : Text) :
    splitLines (l ++ '\n' :: t) = l :: splitLines t := by
  induction l with
  | nil => simp [splitLines]
  | cons c cs ih =>
    have hc : ¬(c = '\n') := fun he => h (he ▸ List.mem_cons_self c cs)
    simp only [List.cons_append, splitLines, if_neg hc]
    rw [show cs.append ('\n' :: t) = cs ++ '\n' :: t from rfl,
      ih (fun hm => h (List.mem_cons_of_mem c hm))]

theorem splitLines_joinLines : ∀ ls : List Line, ls ≠ [] → (∀ l ∈ ls, '\n' ∉ l) →
    splitLines (joinLines ls) = ls := by
  intro ls
  induction ls with
  | nil => intro h; exact absurd rfl h
  | cons l ls ih =>
    intro _ hfree
    cases ls with
    | nil => exact splitLines_single (hfree l (List.mem_cons_self l []))
    | cons l2 ls2 =>
      have hj : joinLines (l :: l2 :: ls2) = l ++ '\n' :: joinLines (l2 :: ls2) := rfl
      rw [hj, splitLines_append (hfree l (List.mem_cons_self l (l2 :: ls2)))]
      rw [ih (by simp) (fun x hx => hfree x (List.mem_cons_of_mem l hx))]

/-- C8: the numbering-merge post-processor is idempotent — applying it twice
yields the same output as applying it once. -/
theorem c8_postprocessor_idempotent (t : Text) : mergeText (mergeText t) = mergeText t := by
  unfold mergeText
  have hne : mergeLines (splitLines t) ≠ [] :=
    mergeLines_ne_nil _ (splitLines_ne_nil t)
  have hfree : ∀ m ∈ mergeLines (splitLines t), '\n' ∉ m :=
    mergeLines_no_newline _ (splitLines_no_newline t)
  rw [splitLines_joinLines _ hne hfree]
  rw [mergeLines_of_good _ (mergeLines_good (splitLines t))]

end PdfConv

